import Mathlib

/-!
Verification development for the reference-extraction engine of the `eli`
repository (`src/law.rs`).  The Rust code is shallowly embedded: paragraph
text is a list of characters (all spans in the code are reported in
character coordinates via `byte_to_char_index_map`, so the embedding works
directly with character indices), hash maps are embedded as their
enumeration sequences (lists of key/value pairs), and the two fallible
operations of the code — the `usize` decrement of the parenthesis depth in
`find_joukou` (and of a span end during trimming), and `Vec::remove` in
`resolve_name_and_number` — are modelled with `Option`, where `none` stands
for an arithmetic-underflow / out-of-bounds panic.
-/

namespace Eli

/-- Character strings, in character (not byte) coordinates. -/
abbrev Str := List Char

/-- Modelled from the spec: the external numeral type (collaborator
`japanese_law_xml_schema::article_number::ArticleNumber`).  The engine only
reads its `base_number` and `eda_numbers` fields ("an ordered numeric value
with a base number and a sequence of sub-numbers"). -/
structure ArticleNumber where
  base_number : Nat
  eda_numbers : List Nat
deriving DecidableEq, Repr

/-- Modelled from the spec: the external `japanese_law_id::Date`
collaborator; the engine only clones and compares it. -/
structure Date where
  ad_year : Nat
  month : Nat
  day : Nat
deriving DecidableEq, Repr

/-- `LawType` from `japanese_law_xml_schema::law`. -/
inductive LawType where
  | Constitution
  | Act
  | CabinetOrder
  | ImperialOrder
  | MinisterialOrdinance
  | Rule
  | Misc
deriving DecidableEq, Repr

/-- `Law` (src/law.rs lines 18-36). -/
structure Law where
  date : Date
  name : Option Str
  law_id : Str
  law_id_text : Str
  patch_id : Option Str
  law_type : LawType
  part_number : Option ArticleNumber
  chapter_number : Option ArticleNumber
  section_number : Option ArticleNumber
  subsection_number : Option ArticleNumber
  division_number : Option ArticleNumber
  article_number : Option ArticleNumber
  paragraph_number : Option ArticleNumber
  paragraph_text : Option Str
  egov_link : Option Str
deriving DecidableEq, Repr

/-- `Law::get_law_id`. -/
def get_law_id (l : Law) : Str := l.law_id

/-- `Position` (src/law.rs lines 373-377); `end` is a Lean keyword, the
field is called `end_`. -/
structure Position where
  start : Nat
  end_ : Nat
deriving DecidableEq, Repr

/-- `FindLawName` (src/law.rs lines 379-384). -/
structure FindLawName where
  position : Position
  find_law : Option Law
  match_string : Str
deriving DecidableEq, Repr

/-- `Find` (src/law.rs lines 386-394); `to` and `from` are Lean keywords,
the fields are called `to_` and `from_`. -/
structure Find where
  to_ : Law
  from_ : Law
  position : Position
deriving DecidableEq, Repr

/-- `ord_article_number` (src/law.rs lines 323-334): equal base numbers are
tie-broken by the first differing pair of eda numbers, then by the number
of eda numbers. -/
def ord_article_number (a b : ArticleNumber) : Ordering :=
  if a.base_number = b.base_number then
    match (a.eda_numbers.zip b.eda_numbers).find? (fun p => decide (p.1 ≠ p.2)) with
    | some p => compare p.1 p.2
    | none => compare a.eda_numbers.length b.eda_numbers.length
  else
    compare a.base_number b.base_number

/-- `ord_article` (src/law.rs lines 336-371). -/
def ord_article (a b : Law) : Ordering :=
  match a.article_number, b.article_number with
  | none, some _ => Ordering.lt
  | some _, none => Ordering.gt
  | none, none =>
    match a.paragraph_number, b.paragraph_number with
    | none, none => Ordering.eq
    | none, some _ => Ordering.lt
    | some _, none => Ordering.gt
    | some a_pa, some b_pa => ord_article_number a_pa b_pa
  | some a_a, some b_a =>
    let o := ord_article_number a_a b_a
    if o = Ordering.eq then
      match a.paragraph_number, b.paragraph_number with
      | none, none => Ordering.eq
      | none, some _ => Ordering.lt
      | some _, none => Ordering.gt
      | some a_pa, some b_pa => ord_article_number a_pa b_pa
    else o

/-- Occurrence search for a non-empty pattern `p :: ps`, mirroring Rust's
`str::match_indices`: leftmost matches, non-overlapping (after a match the
search resumes at the match end).  The `fuel` parameter (instantiated with
the text length, an upper bound on the number of steps since every step
consumes at least one character) makes the recursion structural. -/
def matchIndicesNe (p : Char) (ps : List Char) : Nat → List Char → Nat → List Nat
  | 0, _, _ => []
  | _ + 1, [], _ => []
  | fuel + 1, c :: rest, i =>
    if (p :: ps).isPrefixOf (c :: rest) then
      i :: matchIndicesNe p ps fuel (rest.drop ps.length) (i + 1 + ps.length)
    else
      matchIndicesNe p ps fuel rest (i + 1)

/-- `text.match_indices(pat)`: an empty pattern matches at every character
boundary (as in Rust); a non-empty pattern uses `matchIndicesNe`. -/
def matchIndices (pat text : List Char) : List Nat :=
  match pat with
  | [] => List.range (text.length + 1)
  | p :: ps => matchIndicesNe p ps text.length text 0

/-- `resolve_duplicates` (src/law.rs lines 856-889), written as the
equivalent recursion over the existing list: once a span-equal or
span-contained element is found the replacement decision is made and the
rest of the list is kept verbatim; elements unrelated to the candidate are
kept and the scan continues; if no element interacted the candidate is
appended at the end. -/
def resolve_duplicates (find_lst : List FindLawName) (find : FindLawName) : List FindLawName :=
  match find_lst with
  | [] => [find]
  | f :: rest =>
    if f.position.start = find.position.start ∧ f.position.end_ = find.position.end_ then
      -- 完全に一致するものが見つかったので置き換え
      find :: rest
    else if f.position.start ≥ find.position.start ∧ f.position.end_ ≤ find.position.end_ then
      -- 見つかったものの方が小さかったので置き換え
      find :: rest
    else if f.position.start ≤ find.position.start ∧ f.position.end_ ≥ find.position.end_ then
      -- 見つかったものの方が大きかったので置き換えない
      f :: rest
    else
      f :: resolve_duplicates rest find

/-- One step of the antecedent-search loop of `linking_abb_and_full_name`
(src/law.rs lines 897-908): a candidate ending at or before the mention
start replaces the current best unless it ends strictly earlier than the
best. -/
def linkingStep (abb_info : FindLawName) (result : Option FindLawName)
    (full_name_info : FindLawName) : Option FindLawName :=
  if full_name_info.position.end_ ≤ abb_info.position.start then
    match result with
    | some old_result =>
      if full_name_info.position.end_ < old_result.position.end_ then
        -- すでに見つかったものよりも遠い場合は上書きしない
        result
      else
        some full_name_info
    | none => some full_name_info
  else result

/-- `linking_abb_and_full_name` (src/law.rs lines 892-917). -/
def linking_abb_and_full_name (abb_info : FindLawName) (full_name_info_list : List FindLawName) :
    Option FindLawName :=
  let result := full_name_info_list.foldl (linkingStep abb_info) none
  result.map (fun r => { abb_info with find_law := r.find_law })

/-- `a.abs_diff(b)` on `usize`. -/
def natAbsDiff (a b : Nat) : Nat := if a ≤ b then b - a else a - b

/-- The merge condition of `resolve_name_and_number` (src/law.rs lines
604-610) for an orientation-resolved pair `law1` (earlier), `law2`
(later): gap of exactly 1, `（` at `law1`'s end, same law id, and only
`law2`'s literal text ends in `号`. -/
def pairCond (text : Str) (law1 law2 : FindLawName) : Prop :=
  natAbsDiff law1.position.end_ law2.position.start = 1 -- 差が1
  ∧ text.get? law1.position.end_ = some '（' -- 間にある文字が全角かっこ
  ∧ law1.find_law.map get_law_id = law2.find_law.map get_law_id
  ∧ ¬ (['号'].isSuffixOf law1.match_string = true) -- 前側が号で終わらず
  ∧ ['号'].isSuffixOf law2.match_string = true -- 後ろ側が号で終わる

instance (text : Str) (law1 law2 : FindLawName) : Decidable (pairCond text law1 law2) := by
  unfold pairCond; infer_instance

/-- The per-consecutive-pair decision of `resolve_name_and_number`
(src/law.rs lines 597-615): `i` is the scan index of the first element of
the pair; the element with the smaller span is `law2`, and when the match
is detected the index of the later-positioned element (`i2`) is reported
for removal. -/
def pairDecision (text : Str) (law_name next_law_name : FindLawName) (i : Nat) : Option Nat :=
  let (i2, law1, law2) :=
    if law_name.position.end_ < next_law_name.position.start then
      (i + 1, law_name, next_law_name)
    else
      (i, next_law_name, law_name)
  if pairCond text law1 law2 then some i2 else none

/-- The index-collecting scan of `resolve_name_and_number`: the peekable
iterator examines each consecutive pair of the list exactly once. -/
def pairRemoveIndices (text : Str) : List FindLawName → Nat → List Nat
  | a :: b :: rest, i =>
    (match pairDecision text a b i with
     | some i2 => [i2]
     | none => []) ++ pairRemoveIndices text (b :: rest) (i + 1)
  | _, _ => []

/-- `Vec::remove(i)`: panics (`none`) when `i` is out of bounds. -/
def removeAt (l : List FindLawName) (i : Nat) : Option (List FindLawName) :=
  if i < l.length then some (l.eraseIdx i) else none

/-- `resolve_name_and_number` (src/law.rs lines 592-620): collect the
removal indices from the consecutive-pair scan, then remove them one by
one (each removal shifting the list, as `Vec::remove` does). -/
def resolve_name_and_number (lst : List FindLawName) (text : Str) : Option (List FindLawName) :=
  (pairRemoveIndices text lst 0).foldlM removeAt lst

/-- The `is_universal_name` suppression flag of `find_law_name`
(src/law.rs lines 505-566), as the disjunction of the successive checks;
`start`/`e` are the character span of the occurrence. -/
def isUniversalName (find_law_name : Str) (text_chars : List Char) (start e : Nat) : Bool :=
  (find_law_name = ['法'] ∧ start ≠ 0 ∧
      (text_chars.getD (start - 1) ' ' = '方' ∨ text_chars.getD (start - 1) ' ' = '同' ∨
        text_chars.getD (start - 1) ' ' = '旧'))
  ∨ (['法'].isSuffixOf find_law_name = true ∧ e < text_chars.length - 1 ∧
      text_chars.getD e ' ' = '人')
  ∨ (find_law_name = ['法'] ∧ e < text_chars.length - 1 ∧
      (text_chars.getD e ' ' = '令' ∨ text_chars.getD e ' ' = '律'))
  ∨ (['法'].isSuffixOf find_law_name = true ∧ e < text_chars.length - 2 ∧
      text_chars.getD e ' ' = '律' ∧ text_chars.getD (e + 1) ' ' = '第')
  ∨ (find_law_name = ['令'] ∧ start ≠ 0 ∧
      (text_chars.getD (start - 1) ' ' = '命' ∨ text_chars.getD (start - 1) ' ' = '政' ∨
        text_chars.getD (start - 1) ' ' = '同' ∨ text_chars.getD (start - 1) ' ' = '法' ∨
        text_chars.getD (start - 1) ' ' = '省' ∨ text_chars.getD (start - 1) ' ' = '府' ∨
        text_chars.getD (start - 1) ' ' = '勅' ∨ text_chars.getD (start - 1) ' ' = '旧'))
  ∨ (find_law_name = ['令'] ∧ e < text_chars.length - 1 ∧ text_chars.getD e ' ' = '第' ∧
      start ≠ 0 ∧
      (text_chars.getD (start - 1) ' ' = '省' ∨ text_chars.getD (start - 1) ' ' = '政' ∨
        text_chars.getD (start - 1) ' ' = '勅' ∨ text_chars.getD (start - 1) ' ' = '府'))
  ∨ (['則'].isSuffixOf find_law_name = true ∧ e < text_chars.length - 1 ∧
      text_chars.getD e ' ' = '第' ∧ start > 2 ∧ text_chars.getD (start - 1) ' ' = '規' ∧
      (text_chars.getD (start - 2) ' ' = '院' ∨ text_chars.getD (start - 2) ' ' = '会'))
  ∨ (e < text_chars.length - 1 ∧ text_chars.getD e ' ' = '」')

/-- `find_law_name` (src/law.rs lines 479-588): the known-name table plus
the already-linked abbreviations (whose `find_law` the code `unwrap`s —
`none` models that panic) are scanned for occurrences; every accepted
occurrence is folded into the list via `resolve_duplicates`, then
`resolve_name_and_number` removes name/number duplicates. -/
def find_law_name (text : Str) (law_map : List (Str × Law)) (find_lst : List FindLawName) :
    Option (List FindLawName) := do
  let v2 ← find_lst.mapM (fun v => v.find_law.map (fun l => (v.match_string, l)))
  let v1 := law_map ++ v2
  let lst := v1.foldl
    (fun lst pr =>
      (matchIndices pr.1 text).foldl
        (fun lst start =>
          let e := start + pr.1.length
          if isUniversalName pr.1 text start e then lst
          else resolve_duplicates lst ⟨⟨start, e⟩, some pr.2, pr.1⟩)
        lst)
    []
  resolve_name_and_number lst text

/-- Suffix test used by the abbreviation-declaration regex
`以下「([^」]*(法|令|規則))」`: the captured bracket content must end in
法, 令 or 規則. -/
def abbSuffixOk (inner : Str) : Bool :=
  ['法'].isSuffixOf inner || ['令'].isSuffixOf inner || ['規', '則'].isSuffixOf inner

/-- The scan of `find_abb_def` (src/law.rs lines 715-740): at each
position, an occurrence of `以下「` whose bracket content (up to the first
`」`) ends in 法/令/規則 is a regex match; `find_iter` resumes after the
closing bracket.  Contents ending in 方法 or 命令 are excluded; accepted
matches are folded in via `resolve_duplicates`. -/
def findAbbDefScan : Nat → List Char → Nat → List FindLawName → List FindLawName
  | 0, _, _, lst => lst
  | _ + 1, [], _, lst => lst
  | fuel + 1, c :: rest, i, lst =>
    if ['以', '下', '「'].isPrefixOf (c :: rest) then
      let after := (c :: rest).drop 3
      let inner := after.takeWhile (fun ch => decide (ch ≠ '」'))
      if inner.length < after.length ∧ abbSuffixOk inner = true then
        let lst' :=
          if ['方', '法'].isSuffixOf inner || ['命', '令'].isSuffixOf inner then lst
          else resolve_duplicates lst ⟨⟨i + 3, i + 3 + inner.length⟩, none, inner⟩
        findAbbDefScan fuel (after.drop (inner.length + 1)) (i + 3 + inner.length + 1) lst'
      else
        findAbbDefScan fuel rest (i + 1) lst
    else
      findAbbDefScan fuel rest (i + 1) lst

/-- `find_abb_def` (src/law.rs lines 715-740). -/
def find_abb_def (text : Str) : List FindLawName :=
  findAbbDefScan text.length text 0 []

/-- Occurrences of the regex `同法|同令` (`find_iter`: leftmost,
non-overlapping), with the matched string; `fuel` as in
`matchIndicesNe`. -/
def douhouOccurrences : Nat → List Char → Nat → List (Nat × Str)
  | 0, _, _ => []
  | _ + 1, [], _ => []
  | fuel + 1, c :: rest, i =>
    if ['同', '法'].isPrefixOf (c :: rest) then
      (i, ['同', '法']) :: douhouOccurrences fuel (rest.drop 1) (i + 2)
    else if ['同', '令'].isPrefixOf (c :: rest) then
      (i, ['同', '令']) :: douhouOccurrences fuel (rest.drop 1) (i + 2)
    else
      douhouOccurrences fuel rest (i + 1)

/-- `find_douhou` (src/law.rs lines 743-764). -/
def find_douhou (text : Str) : List FindLawName :=
  (douhouOccurrences text.length text 0).foldl
    (fun lst m =>
      let start := m.1
      let e := m.1 + 2
      if (e < text.length - 1 ∧ text.getD e ' ' = '人')
          ∨ (e < text.length - 2 ∧ text.getD e ' ' = '律' ∧ text.getD (e + 1) ' ' = '第') then
        lst
      else
        lst ++ [⟨⟨start, e⟩, none, m.2⟩])
    []

/-- The character set collected by `find_joukou` (src/law.rs lines
774-777). -/
def target_c : List Char :=
  ['第', '条', '項', 'の', 'ノ', '一', '二', '三', '四', '五', '六', '七', '八', '九', '十',
    '百', '千']

/-- The character loop of `find_joukou` (src/law.rs lines 779-800) over the
text from the mention end: parenthesised runs are skipped (an unmatched
`）` at depth zero underflows the `usize` depth counter — `none`); at depth
zero, characters of `target_c` are collected into `s` and `end` is set to
the index of the collected character; the first other character stops the
scan. -/
def joukouScan : List Char → Nat → Nat → List Char → Nat → Option (List Char × Nat)
  | [], _, _, s, e => some (s, e)
  | c :: cs, i, paren_depth, s, e =>
    if c = '（' then
      joukouScan cs (i + 1) (paren_depth + 1) s e
    else if c = '）' then
      if paren_depth = 0 then none
      else joukouScan cs (i + 1) (paren_depth - 1) s e
    else if paren_depth > 0 then
      joukouScan cs (i + 1) paren_depth s e
    else if target_c.contains c then
      joukouScan cs (i + 1) paren_depth (s ++ [c]) i
    else
      some (s, e)

/-- `s.trim_end_matches(ch)`: removes every trailing occurrence. -/
def trimEndMatches (s : List Char) (ch : Char) : List Char :=
  (s.reverse.dropWhile (fun c => c = ch)).reverse

/-- The number-assignment loop of `find_joukou` (src/law.rs lines 811-835):
the collected string is split on `第`, each non-empty segment re-prefixed
with `第` is parsed by the external `parse_article_number` (parameter
`pan`), and assigned to the field selected by its final character. -/
def assignNumber (pan : Str → Option ArticleNumber) (law : Law) (a : List Char) : Law :=
  if a = [] then law
  else
    match pan ('第' :: a) with
    | none => law
    | some num =>
      if ['条'].isSuffixOf a then { law with article_number := some num }
      else if ['項'].isSuffixOf a then { law with paragraph_number := some num }
      else if ['編'].isSuffixOf a then { law with part_number := some num }
      else if ['章'].isSuffixOf a then { law with chapter_number := some num }
      else if ['節'].isSuffixOf a then { law with section_number := some num }
      else if ['款'].isSuffixOf a then { law with subsection_number := some num }
      else if ['目'].isSuffixOf a then { law with division_number := some num }
      else law

/-- One trim step of `find_joukou` (src/law.rs lines 802-809): when the
collected string ends in the given character, every trailing occurrence is
removed (`trim_end_matches`) and `end` is decremented once — a decrement
at zero is the `usize` underflow panic (`none`). -/
def joukouTrim (ch : Char) (p : List Char × Nat) : Option (List Char × Nat) :=
  if [ch].isSuffixOf p.1 then
    (if p.2 = 0 then none else some (trimEndMatches p.1 ch, p.2 - 1))
  else some p

/-- `find_joukou` (src/law.rs lines 771-837), parameterised by the external
`parse_article_number` collaborator (`pan`).  Returns the final `end`
together with the updated law; `none` models the `usize` underflow panics
(parenthesis depth below zero, or `end -= 1` at zero while trimming). -/
def find_joukou (pan : Str → Option ArticleNumber) (text : Str) (position : Position)
    (law : Law) : Option (Nat × Law) :=
  (joukouScan (text.drop position.end_) position.end_ 0 [] position.end_).bind fun se =>
    -- 末尾が'の', 'ノ'ならばそれを取り除く
    (joukouTrim 'の' se).bind fun se2 =>
      (joukouTrim 'ノ' se2).bind fun se3 =>
        some (se3.2, (se3.1.splitOn '第').foldl (assignNumber pan) law)

/-- The comparator `ord_article` as a Boolean "less or equal", used to
model `paragraph_list.sort_by(ord_article)`. -/
def ordArticleLe (a b : Law) : Bool := ord_article a b ≠ Ordering.gt

/-- `parse_ref` (src/law.rs lines 399-476), with the two hash maps
embedded as their enumeration sequences: `target` is the sequence of
paragraph `Law` values (the map's values), `law_map` the sequence of
name/law pairs.  Paragraphs are sorted by `ord_article` and processed in
order, accumulating the cross-paragraph abbreviation list. -/
def parse_ref (pan : Str → Option ArticleNumber) (target : List Law)
    (law_map : List (Str × Law)) : Option (List Find) := do
  let paragraph_list := (target.filter (fun l => l.paragraph_text.isSome)).mergeSort ordArticleLe
  let res ← paragraph_list.foldlM
    (fun (acc : List Find × List FindLawName) paragraph => do
      let (result, law_name_list) := acc
      match paragraph.paragraph_text with
      | none => pure (result, law_name_list)
      | some text => do
        -- 正式名称の一覧を持ってテキスト内検索を行う
        let find_law_name_result ← find_law_name text law_map law_name_list
        -- 略称の定義箇所を検索し，今までの項で見つかった法令名と紐付ける
        let linked_abb_def_result :=
          (find_abb_def text).filterMap (fun l => linking_abb_and_full_name l find_law_name_result)
        let find_law_name_result2 := find_law_name_result ++ linked_abb_def_result
        -- 同法・同令の出現位置を検索し，紐付ける
        let linked_douhou_result :=
          (find_douhou text).filterMap (fun l => linking_abb_and_full_name l find_law_name_result2)
        let find_law_name_result3 := find_law_name_result2 ++ linked_douhou_result
        let news ← find_law_name_result3.foldlM
          (fun news f =>
            match f.find_law with
            | none => pure news
            | some l => do
              let (e, to_law) ← find_joukou pan text f.position l
              pure (news ++ [⟨to_law, paragraph, ⟨f.position.start, e⟩⟩]))
          ([] : List Find)
        -- 略称は他の項でも見るので追加
        pure (result ++ news, law_name_list ++ linked_abb_def_result))
    (([], []) : List Find × List FindLawName)
  return res.1

/-- A trivial stand-in for the external `parse_article_number`
collaborator, used by concrete witnesses. -/
def pan_none : Str → Option ArticleNumber := fun _ => none

/-! ### Claim-side notions -/

/-- The frame of `find_joukou`: the fields of `Law` that the function never
writes (everything except the seven structural number fields). -/
def FrameEq (a b : Law) : Prop :=
  a.date = b.date ∧ a.name = b.name ∧ a.law_id = b.law_id ∧ a.law_id_text = b.law_id_text
  ∧ a.patch_id = b.patch_id ∧ a.law_type = b.law_type ∧ a.paragraph_text = b.paragraph_text
  ∧ a.egov_link = b.egov_link

instance (a b : Law) : Decidable (FrameEq a b) := by
  unfold FrameEq; infer_instance

/-- Recursive restatement of the eda-number comparison of
`ord_article_number` (first differing element, then length). -/
def edaCmp : List Nat → List Nat → Ordering
  | [], [] => Ordering.eq
  | [], _ :: _ => Ordering.lt
  | _ :: _, [] => Ordering.gt
  | x :: xs, y :: ys => if x = y then edaCmp xs ys else compare x y

/-- The option layer of `ord_article`: an absent article (or paragraph)
number sorts before a present one. -/
def optCmp : Option ArticleNumber → Option ArticleNumber → Ordering
  | none, none => Ordering.eq
  | none, some _ => Ordering.lt
  | some _, none => Ordering.gt
  | some x, some y => ord_article_number x y

/-- The consecutive-pair decision of `resolve_name_and_number` read off the
list: `none` when `j` is not the index of a consecutive pair. -/
def pairDecisionAt (text : Str) (lst : List FindLawName) (j : Nat) : Option Nat :=
  match lst.get? j, lst.get? (j + 1) with
  | some a, some b => pairDecision text a b j
  | _, _ => none

/-- Two half-open character spans overlap: their intersection is
non-empty. -/
def Overlapping (p q : Position) : Prop := p.start < q.end_ ∧ q.start < p.end_

instance (p q : Position) : Decidable (Overlapping p q) := by
  unfold Overlapping; infer_instance

/-- A list of mentions is free of overlapping spans. -/
def NoOverlap (lst : List FindLawName) : Prop :=
  lst.Pairwise (fun a b => ¬ Overlapping a.position b.position)

instance (lst : List FindLawName) : Decidable (NoOverlap lst) := by
  unfold NoOverlap; infer_instance

/-- `outer` contains `inner` (equality allowed). -/
def SpanContains (outer inner : Position) : Prop :=
  outer.start ≤ inner.start ∧ inner.end_ ≤ outer.end_

instance (p q : Position) : Decidable (SpanContains p q) := by
  unfold SpanContains; infer_instance

/-! ### Shared concrete sample values -/

def sampleDate : Date := ⟨2000, 1, 1⟩

def law0 : Law :=
  ⟨sampleDate, none, ['a'], [], none, LawType.Act, none, none, none, none, none, none, none,
    none, none⟩

def law1 : Law := { law0 with law_id := ['1'] }

def law2 : Law := { law0 with law_id := ['2'] }

/-- A paragraph entry with text `ABC`. -/
def para0 : Law := { law0 with paragraph_text := some ['A', 'B', 'C'] }

/-- A bare mention with span `[s, e)`. -/
def fln (s e : Nat) : FindLawName := ⟨⟨s, e⟩, none, []⟩

/-- A paragraph entry with empty text and no article number. -/
def paraA : Law := { law0 with paragraph_text := some [] }

/-- A paragraph entry with empty text under article 1. -/
def paraB : Law :=
  { law0 with article_number := some ⟨1, []⟩, paragraph_text := some [] }

/-- Well-formed paragraph text with two name/number merge pairs
(`あ法（い号な` and `う法（え号な`) and no closing parenthesis at all. -/
def text3 : Str := ['あ', '法', '（', 'い', '号', 'な', 'う', '法', '（', 'え', '号', 'な']

/-- Name table for `text3`: name and statute number of `law1`, then of
`law2`. -/
def lawMap3 : List (Str × Law) :=
  [(['あ', '法'], law1), (['い', '号'], law1), (['う', '法'], law2), (['え', '号'], law2)]

/-- A paragraph entry carrying `text3`. -/
def para3 : Law := { law0 with paragraph_text := some text3 }

/-- The full-name match list of the spec's antecedent-linking example:
spans `[5,7)`, `[8,10)`, `[29,31)` resolving to `law0`, `law1`, `law2`. -/
def linkEx : List FindLawName :=
  [⟨⟨5, 7⟩, some law0, []⟩, ⟨⟨8, 10⟩, some law1, []⟩, ⟨⟨29, 31⟩, some law2, []⟩]

/-! ### C1 -/

/-- C1, counterexample: `resolve_duplicates` does not keep the result list
free of overlapping spans.  The list `[[0,2)]` is overlap-free, but
inserting the partially overlapping candidate `[1,3)` (neither span
containing the other) appends it, and the output contains two overlapping,
non-identical spans. -/
theorem C1_counterexample :
    NoOverlap [fln 0 2]
    ∧ resolve_duplicates [fln 0 2] (fln 1 3) = [fln 0 2, fln 1 3]
    ∧ Overlapping (fln 0 2).position (fln 1 3).position
    ∧ (fln 0 2).position ≠ (fln 1 3).position := by
  decide

/-! ### C3 -/

lemma mergeSort_single (x : Law) : ([x] : List Law).mergeSort ordArticleLe = [x] :=
  List.perm_singleton.1 (List.mergeSort_perm [x] ordArticleLe)

/-- C3, counterexample: the claim fails in two independent ways.  On the
malformed text `あ）` with a mention span `[0,1)`, the first scanned
character is an unmatched `）` at parenthesis depth zero and the `usize`
decrement of the depth counter underflows (a panic under overflow
checks), so `find_joukou` does not return normally.  And even on the
well-formed text `text3` — which contains no `）` at all, so every scan
window is balanced — a paragraph with two name/number merge pairs makes
the second `Vec::remove` of `resolve_name_and_number` use a stale
out-of-bounds index (the collected indices `[1, 3]` are applied
sequentially to a shrinking list, the second to a 3-element list), so
`find_law_name`, and with it `parse_ref`, does not return normally
either. -/
theorem C3_counterexample :
    find_joukou pan_none ['あ', '）'] ⟨0, 1⟩ law0 = none
    ∧ text3.count '）' = 0
    ∧ find_law_name text3 lawMap3 [] = none
    ∧ parse_ref pan_none [para3] lawMap3 = none := by
  refine ⟨by decide, by decide, by decide, ?_⟩
  unfold parse_ref
  rw [show ([para3].filter (fun l => l.paragraph_text.isSome)) = [para3] from rfl,
    mergeSort_single]
  decide

/-! ### C4 -/

/-- C4, counterexample: for the text `あ法の規` with the mention span
`[0,2)`, the forward scan collects exactly the single character `の`
(setting `end` to its index 2) and the trim step then decrements `end` to
1 — strictly below the mention's original end offset 2.  No trailing
numeral text remains after trimming, yet the returned end offset is not
the original end offset; the returned span `[0,1)` does not even cover the
mention. -/
theorem C4_counterexample :
    find_joukou pan_none ['あ', '法', 'の', '規'] ⟨0, 2⟩ law0 = some (1, law0) ∧ 1 < 2 := by
  exact ⟨by decide, by decide⟩

/-! ### C6 -/

def fa6 : FindLawName := ⟨⟨0, 2⟩, some law1, ['a', 'b']⟩

def fx6 : FindLawName := ⟨⟨10, 11⟩, some law2, ['x']⟩

def fb6 : FindLawName := ⟨⟨3, 5⟩, some law1, ['c', '号']⟩

def text6 : Str := ['a', 'b', '（', 'c', '号']

/-- C6, counterexample: the matches `fa6` (law name, span `[0,2)`) and
`fb6` (statute number, span `[3,5)`) satisfy every condition of the claim
— same law identity, `（` at the earlier match's end offset, gap exactly 1,
only the later match's literal text ends in `号` — but they are not
consecutive in the match list (`fx6` sits between them), so
`resolve_name_and_number` leaves the list untouched and the statute-number
match is not removed. -/
theorem C6_counterexample :
    resolve_name_and_number [fa6, fx6, fb6] text6 = some [fa6, fx6, fb6]
    ∧ fa6.find_law.map get_law_id = fb6.find_law.map get_law_id
    ∧ text6.get? fa6.position.end_ = some '（'
    ∧ fb6.position.start = fa6.position.end_ + 1
    ∧ ¬ (['号'].isSuffixOf fa6.match_string = true)
    ∧ ['号'].isSuffixOf fb6.match_string = true := by
  decide

/-! ### C7 -/

/-- C7: the code contradicts the claim — when the occurrence `同法人` sits
at the very end of the paragraph text, the exclusion guard
`end < text_chars.len() - 1` is false (the following `人` is the final
character), so `find_douhou` does produce an anaphora match for `同法`. -/
theorem C7_code_bug_eval :
    find_douhou ['同', '法', '人'] = [⟨⟨0, 2⟩, none, ['同', '法']⟩]
    ∧ find_douhou ['同', '法', '人', 'あ'] = [] := by
  decide

/-! ### C8 -/

/-- C8: the code contradicts the claim — when the closing bracket `」`
immediately following a matched name is the final character of the text,
the suppression guard `end < text_chars.len() - 1` is false, so
`find_law_name` does produce a candidate mention (while the same match
one character earlier in a longer text is suppressed). -/
theorem C8_code_bug_eval :
    find_law_name ['あ', '法', '」'] [(['あ', '法'], law1)] []
      = some [⟨⟨0, 2⟩, some law1, ['あ', '法']⟩]
    ∧ find_law_name ['あ', '法', '」', 'あ'] [(['あ', '法'], law1)] [] = some [] := by
  decide

/-! ### C10: frame property of find_joukou -/

lemma frameEq_refl (a : Law) : FrameEq a a :=
  ⟨rfl, rfl, rfl, rfl, rfl, rfl, rfl, rfl⟩

lemma frameEq_trans {a b c : Law} (h1 : FrameEq a b) (h2 : FrameEq b c) : FrameEq a c :=
  ⟨h1.1.trans h2.1, h1.2.1.trans h2.2.1, h1.2.2.1.trans h2.2.2.1,
    h1.2.2.2.1.trans h2.2.2.2.1, h1.2.2.2.2.1.trans h2.2.2.2.2.1,
    h1.2.2.2.2.2.1.trans h2.2.2.2.2.2.1, h1.2.2.2.2.2.2.1.trans h2.2.2.2.2.2.2.1,
    h1.2.2.2.2.2.2.2.trans h2.2.2.2.2.2.2.2⟩

lemma assignNumber_frame (pan : Str → Option ArticleNumber) (law : Law) (a : List Char) :
    FrameEq (assignNumber pan law a) law := by
  unfold assignNumber FrameEq
  repeat' split
  all_goals simp

lemma foldl_assignNumber_frame (pan : Str → Option ArticleNumber) :
    ∀ (segs : List (List Char)) (law : Law), FrameEq (segs.foldl (assignNumber pan) law) law := by
  intro segs
  induction segs with
  | nil => intro law; exact frameEq_refl law
  | cons a t ih =>
    intro law
    simp only [List.foldl_cons]
    exact frameEq_trans (ih (assignNumber pan law a)) (assignNumber_frame pan law a)

/-- C10: every successful call of `find_joukou` modifies at most the
part/chapter/section/subsection/division/article/paragraph number fields
of the target law: the fields `date`, `name`, `law_id`, `law_id_text`,
`patch_id`, `law_type`, `paragraph_text` and `egov_link` of the returned
law are those of the input law, so every emitted reference's target
carries the same law identity as its antecedent. -/
theorem C10_find_joukou_frame (pan : Str → Option ArticleNumber) (text : Str)
    (position : Position) (law : Law) (e : Nat) (law' : Law)
    (h : find_joukou pan text position law = some (e, law')) : FrameEq law' law := by
  unfold find_joukou at h
  rw [Option.bind_eq_some] at h
  obtain ⟨se1, _, h⟩ := h
  rw [Option.bind_eq_some] at h
  obtain ⟨se2, _, h⟩ := h
  rw [Option.bind_eq_some] at h
  obtain ⟨se3, _, h⟩ := h
  injection h with h
  have hl : law' = (se3.1.splitOn '第').foldl (assignNumber pan) law :=
    (congrArg Prod.snd h).symm
  exact hl ▸ foldl_assignNumber_frame pan _ law

/-- Witness for C10 at a concrete input. -/
theorem C10_witness :
    find_joukou pan_none ['あ'] ⟨0, 1⟩ law0 = some (1, law0) ∧ FrameEq law0 law0 :=
  ⟨by decide, C10_find_joukou_frame pan_none ['あ'] ⟨0, 1⟩ law0 1 law0 (by decide)⟩

/-! ### C9: the locator ordering -/

lemma natCompare_swap (a b : Nat) : compare b a = (compare a b).swap := by
  rcases Nat.lt_trichotomy a b with h | h | h
  · rw [Nat.compare_eq_lt.2 h, Nat.compare_eq_gt.2 h]; rfl
  · subst h; rw [Nat.compare_eq_eq.2 rfl]; rfl
  · rw [Nat.compare_eq_gt.2 h, Nat.compare_eq_lt.2 h]; rfl

lemma natCompare_succ (a b : Nat) : compare (a + 1) (b + 1) = compare a b := by
  rcases Nat.lt_trichotomy a b with h | h | h
  · rw [Nat.compare_eq_lt.2 h, Nat.compare_eq_lt.2 (by omega)]
  · subst h; rw [Nat.compare_eq_eq.2 rfl, Nat.compare_eq_eq.2 rfl]
  · rw [Nat.compare_eq_gt.2 h, Nat.compare_eq_gt.2 (by omega)]

lemma zipFind_eq_edaCmp : ∀ xs ys : List Nat,
    (match (xs.zip ys).find? (fun p => decide (p.1 ≠ p.2)) with
     | some p => compare p.1 p.2
     | none => compare xs.length ys.length) = edaCmp xs ys := by
  intro xs
  induction xs with
  | nil =>
    intro ys
    cases ys with
    | nil => simp [edaCmp]; rw [Nat.compare_eq_eq.2 rfl]
    | cons y t => simp [edaCmp]; exact Nat.compare_eq_lt.2 (by omega)
  | cons x xs ih =>
    intro ys
    cases ys with
    | nil => simp [edaCmp]; exact Nat.compare_eq_gt.2 (by omega)
    | cons y t =>
      rw [List.zip_cons_cons]
      by_cases hxy : x = y
      · subst hxy
        rw [List.find?_cons_of_neg _ (by simp)]
        have h2 : edaCmp (x :: xs) (x :: t) = edaCmp xs t := by simp [edaCmp]
        rw [h2]
        have hih := ih t
        rcases hf : (xs.zip t).find? (fun p => decide (p.1 ≠ p.2)) with _ | p
        · rw [hf] at hih
          simp only [hf, List.length_cons, natCompare_succ]
          exact hih
        · rw [hf] at hih
          simp only [hf]
          exact hih
      · rw [List.find?_cons_of_pos _ (by simp [hxy])]
        simp [edaCmp, hxy]

lemma ord_article_number_eq (a b : ArticleNumber) :
    ord_article_number a b =
      if a.base_number = b.base_number then edaCmp a.eda_numbers b.eda_numbers
      else compare a.base_number b.base_number := by
  unfold ord_article_number
  by_cases h : a.base_number = b.base_number
  · rw [if_pos h, if_pos h, zipFind_eq_edaCmp]
  · rw [if_neg h, if_neg h]

lemma edaCmp_eq_iff : ∀ xs ys : List Nat, edaCmp xs ys = Ordering.eq ↔ xs = ys := by
  intro xs
  induction xs with
  | nil => intro ys; cases ys <;> simp [edaCmp]
  | cons x xs ih =>
    intro ys
    cases ys with
    | nil => simp [edaCmp]
    | cons y t =>
      by_cases hxy : x = y
      · subst hxy; simp [edaCmp, ih]
      · simp only [edaCmp, if_neg hxy]
        constructor
        · intro h
          rcases Nat.lt_trichotomy x y with h' | h' | h'
          · rw [Nat.compare_eq_lt.2 h'] at h; exact absurd h (by simp)
          · exact absurd h' hxy
          · rw [Nat.compare_eq_gt.2 h'] at h; exact absurd h (by simp)
        · intro h
          injection h with h1 h2
          exact absurd h1 hxy

lemma edaCmp_swap : ∀ xs ys : List Nat, edaCmp ys xs = (edaCmp xs ys).swap := by
  intro xs
  induction xs with
  | nil => intro ys; cases ys <;> rfl
  | cons x xs ih =>
    intro ys
    cases ys with
    | nil => rfl
    | cons y t =>
      by_cases hxy : x = y
      · subst hxy; simp [edaCmp, ih]
      · simp only [edaCmp, if_neg hxy, if_neg (Ne.symm hxy)]
        exact natCompare_swap x y

lemma edaCmp_lt_trans : ∀ xs ys zs : List Nat,
    edaCmp xs ys = Ordering.lt → edaCmp ys zs = Ordering.lt → edaCmp xs zs = Ordering.lt := by
  intro xs
  induction xs with
  | nil =>
    intro ys zs h1 h2
    cases ys with
    | nil => exact h2
    | cons y t =>
      cases zs with
      | nil => simp [edaCmp] at h2
      | cons z u => simp [edaCmp]
  | cons x xs ih =>
    intro ys zs h1 h2
    cases ys with
    | nil => simp [edaCmp] at h1
    | cons y t =>
      cases zs with
      | nil => simp [edaCmp] at h2
      | cons z u =>
        by_cases hxy : x = y <;> by_cases hyz : y = z
        · subst hxy; subst hyz
          simp only [edaCmp, if_pos rfl] at h1 h2 ⊢
          exact ih t u h1 h2
        · subst hxy
          simp only [edaCmp, if_pos rfl, if_neg hyz] at h1 h2 ⊢
          exact h2
        · subst hyz
          simp only [edaCmp, if_neg hxy, if_pos rfl] at h1 h2 ⊢
          exact h1
        · simp only [edaCmp, if_neg hxy, if_neg hyz] at h1 h2
          have hx : x < y := Nat.compare_eq_lt.1 h1
          have hy : y < z := Nat.compare_eq_lt.1 h2
          have hxz : x ≠ z := by omega
          simp only [edaCmp, if_neg hxz]
          exact Nat.compare_eq_lt.2 (by omega)

lemma ordAN_eq_iff (a b : ArticleNumber) : ord_article_number a b = Ordering.eq ↔ a = b := by
  rw [ord_article_number_eq]
  by_cases h : a.base_number = b.base_number
  · rw [if_pos h, edaCmp_eq_iff]
    constructor
    · intro h2
      cases a; cases b
      simp_all
    · intro h2; subst h2; rfl
  · rw [if_neg h]
    constructor
    · intro h2
      rcases Nat.lt_trichotomy a.base_number b.base_number with h' | h' | h'
      · rw [Nat.compare_eq_lt.2 h'] at h2; exact absurd h2 (by simp)
      · exact absurd h' h
      · rw [Nat.compare_eq_gt.2 h'] at h2; exact absurd h2 (by simp)
    · intro h2; subst h2; exact absurd rfl h

lemma ordAN_swap (a b : ArticleNumber) :
    ord_article_number b a = (ord_article_number a b).swap := by
  rw [ord_article_number_eq, ord_article_number_eq]
  by_cases h : a.base_number = b.base_number
  · rw [if_pos h, if_pos h.symm, edaCmp_swap]
  · rw [if_neg h, if_neg (Ne.symm h), natCompare_swap]

lemma ordAN_lt_trans (a b c : ArticleNumber) (h1 : ord_article_number a b = Ordering.lt)
    (h2 : ord_article_number b c = Ordering.lt) : ord_article_number a c = Ordering.lt := by
  rw [ord_article_number_eq] at h1 h2 ⊢
  by_cases hab : a.base_number = b.base_number <;> by_cases hbc : b.base_number = c.base_number
  · rw [if_pos hab] at h1
    rw [if_pos hbc] at h2
    rw [if_pos (hab.trans hbc)]
    exact edaCmp_lt_trans _ _ _ h1 h2
  · rw [if_pos hab] at h1
    rw [if_neg hbc] at h2
    rw [hab, if_neg hbc]
    exact h2
  · rw [if_neg hab] at h1
    rw [if_pos hbc] at h2
    rw [← hbc, if_neg hab]
    exact h1
  · rw [if_neg hab] at h1
    rw [if_neg hbc] at h2
    have hx : a.base_number < b.base_number := Nat.compare_eq_lt.1 h1
    have hy : b.base_number < c.base_number := Nat.compare_eq_lt.1 h2
    rw [if_neg (by omega : a.base_number ≠ c.base_number)]
    exact Nat.compare_eq_lt.2 (by omega)

lemma optCmp_eq_iff (x y : Option ArticleNumber) : optCmp x y = Ordering.eq ↔ x = y := by
  cases x <;> cases y
  · simp [optCmp]
  · simp [optCmp]
  · simp [optCmp]
  · rw [show optCmp (some _) (some _) = ord_article_number _ _ from rfl, ordAN_eq_iff]
    simp

lemma optCmp_swap (x y : Option ArticleNumber) : optCmp y x = (optCmp x y).swap := by
  cases x <;> cases y
  · rfl
  · rfl
  · rfl
  · exact ordAN_swap _ _

lemma optCmp_lt_trans (x y z : Option ArticleNumber) (h1 : optCmp x y = Ordering.lt)
    (h2 : optCmp y z = Ordering.lt) : optCmp x z = Ordering.lt := by
  cases x with
  | none =>
    cases z with
    | none =>
      cases y with
      | none => exact h1
      | some v => exact absurd h2 (by simp [optCmp])
    | some v => rfl
  | some xv =>
    cases y with
    | none => exact absurd h1 (by simp [optCmp])
    | some yv =>
      cases z with
      | none => exact absurd h2 (by simp [optCmp])
      | some zv => exact ordAN_lt_trans _ _ _ h1 h2

lemma then_eq_eq (o p : Ordering) :
    o.then p = Ordering.eq ↔ o = Ordering.eq ∧ p = Ordering.eq := by
  cases o <;> simp [Ordering.then]

lemma then_eq_lt (o p : Ordering) :
    o.then p = Ordering.lt ↔ o = Ordering.lt ∨ (o = Ordering.eq ∧ p = Ordering.lt) := by
  cases o <;> simp [Ordering.then]

lemma then_swap (o p : Ordering) : (o.then p).swap = o.swap.then p.swap := by
  cases o <;> cases p <;> rfl

lemma ord_article_eq_lex (a b : Law) :
    ord_article a b =
      (optCmp a.article_number b.article_number).then
        (optCmp a.paragraph_number b.paragraph_number) := by
  unfold ord_article
  rcases a.article_number with _ | aa <;> rcases b.article_number with _ | ba
  · rcases a.paragraph_number with _ | ap <;> rcases b.paragraph_number with _ | bp <;>
      simp [optCmp, Ordering.then]
  · simp [optCmp, Ordering.then]
  · simp [optCmp, Ordering.then]
  · rcases ho : ord_article_number aa ba with _ | _ | _ <;>
      rcases a.paragraph_number with _ | ap <;> rcases b.paragraph_number with _ | bp <;>
      simp [optCmp, Ordering.then, ho]

lemma ord_article_swap (a b : Law) : ord_article b a = (ord_article a b).swap := by
  rw [ord_article_eq_lex b a, ord_article_eq_lex a b, then_swap,
    optCmp_swap a.article_number b.article_number,
    optCmp_swap a.paragraph_number b.paragraph_number]

lemma ord_article_eq_key (a b : Law) :
    ord_article a b = Ordering.eq ↔
      a.article_number = b.article_number ∧ a.paragraph_number = b.paragraph_number := by
  rw [ord_article_eq_lex, then_eq_eq, optCmp_eq_iff, optCmp_eq_iff]

lemma ord_article_lt_trans (a b c : Law) (h1 : ord_article a b = Ordering.lt)
    (h2 : ord_article b c = Ordering.lt) : ord_article a c = Ordering.lt := by
  rw [ord_article_eq_lex, then_eq_lt] at h1 h2 ⊢
  rcases h1 with h1 | ⟨h1e, h1p⟩ <;> rcases h2 with h2 | ⟨h2e, h2p⟩
  · exact Or.inl (optCmp_lt_trans _ _ _ h1 h2)
  · left
    rw [← (optCmp_eq_iff _ _).1 h2e]
    exact h1
  · left
    rw [(optCmp_eq_iff _ _).1 h1e]
    exact h2
  · right
    have hac : a.article_number = c.article_number :=
      ((optCmp_eq_iff _ _).1 h1e).trans ((optCmp_eq_iff _ _).1 h2e)
    exact ⟨(optCmp_eq_iff _ _).2 hac, optCmp_lt_trans _ _ _ h1p h2p⟩

/-- C9: the locator ordering `ord_article` (with `ord_article_number`) is a
strict total order in the sense stated by the spec: its induced less-than
relation is irreflexive, antisymmetric and transitive on all locator
triples, and every locator with no article number compares strictly before
every locator with an article number. -/
theorem C9_locator_ordering :
    (∀ a : Law, ¬ ord_article a a = Ordering.lt)
    ∧ (∀ a b : Law, ord_article a b = Ordering.lt → ¬ ord_article b a = Ordering.lt)
    ∧ (∀ a b c : Law, ord_article a b = Ordering.lt → ord_article b c = Ordering.lt →
        ord_article a c = Ordering.lt)
    ∧ (∀ a b : Law, a.article_number = none → b.article_number ≠ none →
        ord_article a b = Ordering.lt) := by
  refine ⟨?_, ?_, ord_article_lt_trans, ?_⟩
  · intro a h
    rw [(ord_article_eq_key a a).2 ⟨rfl, rfl⟩] at h
    exact absurd h (by simp)
  · intro a b h1 h2
    rw [ord_article_swap, h1] at h2
    exact absurd h2 (by decide)
  · intro a b h1 h2
    rcases hb : b.article_number with _ | bn
    · exact absurd hb h2
    · unfold ord_article
      rw [h1, hb]

/-- Witness for C9 at concrete locators: `law0` has no article number,
`lawArt1`/`lawArt2` have article numbers 1 and 2. -/
theorem C9_witness :
    ¬ ord_article law0 law0 = Ordering.lt
    ∧ ¬ ord_article { law0 with article_number := some ⟨1, []⟩ } law0 = Ordering.lt
    ∧ ord_article law0 { law0 with article_number := some ⟨2, []⟩ } = Ordering.lt
    ∧ ord_article { law0 with article_number := some ⟨1, []⟩ }
        { law0 with article_number := some ⟨2, []⟩ } = Ordering.lt :=
  ⟨C9_locator_ordering.1 law0,
    C9_locator_ordering.2.1 law0 { law0 with article_number := some ⟨1, []⟩ } (by decide),
    C9_locator_ordering.2.2.2 law0 { law0 with article_number := some ⟨2, []⟩ } rfl (by decide),
    C9_locator_ordering.2.2.1 { law0 with article_number := some ⟨1, []⟩ }
      { law0 with article_number := some ⟨1, [1]⟩ }
      { law0 with article_number := some ⟨2, []⟩ } (by decide) (by decide)⟩

/-! ### C5: the antecedent linker -/

lemma linkingStep_some (abb o f : FindLawName) :
    ∃ c, linkingStep abb (some o) f = some c ∧ o.position.end_ ≤ c.position.end_ := by
  by_cases hp : f.position.end_ ≤ abb.position.start
  · by_cases hlt : f.position.end_ < o.position.end_
    · exact ⟨o, by simp [linkingStep, hp, hlt], le_refl _⟩
    · exact ⟨f, by simp [linkingStep, hp, hlt], by omega⟩
  · exact ⟨o, by simp [linkingStep, hp], le_refl _⟩

lemma linkingFold_mono (abb : FindLawName) :
    ∀ (lst : List FindLawName) (o c : FindLawName),
      lst.foldl (linkingStep abb) (some o) = some c → o.position.end_ ≤ c.position.end_ := by
  intro lst
  induction lst with
  | nil =>
    intro o c h
    simp only [List.foldl_nil] at h
    injection h with h
    rw [h]
  | cons f t ih =>
    intro o c h
    simp only [List.foldl_cons] at h
    obtain ⟨o', ho', hle⟩ := linkingStep_some abb o f
    rw [ho'] at h
    exact le_trans hle (ih o' c h)

lemma linkingFold_none_iff (abb : FindLawName) :
    ∀ (lst : List FindLawName) (r0 : Option FindLawName),
      lst.foldl (linkingStep abb) r0 = none ↔
        r0 = none ∧ ∀ f ∈ lst, ¬ f.position.end_ ≤ abb.position.start := by
  intro lst
  induction lst with
  | nil => intro r0; simp
  | cons f t ih =>
    intro r0
    simp only [List.foldl_cons, ih (linkingStep abb r0 f), List.mem_cons]
    constructor
    · rintro ⟨hstep, hrest⟩
      by_cases hp : f.position.end_ ≤ abb.position.start
      · exfalso
        rcases r0 with _ | o
        · simp [linkingStep, hp] at hstep
        · simp only [linkingStep, if_pos hp] at hstep
          split at hstep <;> simp_all
      · refine ⟨?_, ?_⟩
        · simpa [linkingStep, hp] using hstep
        · rintro g (rfl | hg)
          · exact hp
          · exact hrest g hg
    · rintro ⟨hr0, hall⟩
      have hp : ¬ f.position.end_ ≤ abb.position.start := hall f (Or.inl rfl)
      refine ⟨?_, fun g hg => hall g (Or.inr hg)⟩
      simp only [linkingStep, if_neg hp]
      exact hr0

lemma linkingFold_char (abb : FindLawName) :
    ∀ (lst : List FindLawName) (r0 : Option FindLawName) (c : FindLawName),
      lst.foldl (linkingStep abb) r0 = some c →
      (∃ l1 l2, lst = l1 ++ c :: l2 ∧ c.position.end_ ≤ abb.position.start
          ∧ (∀ f ∈ l1, f.position.end_ ≤ abb.position.start →
              f.position.end_ ≤ c.position.end_)
          ∧ (∀ f ∈ l2, f.position.end_ ≤ abb.position.start →
              f.position.end_ < c.position.end_))
      ∨ (r0 = some c ∧ ∀ f ∈ lst, f.position.end_ ≤ abb.position.start →
          f.position.end_ < c.position.end_) := by
  intro lst
  induction lst with
  | nil =>
    intro r0 c h
    simp only [List.foldl_nil] at h
    right
    exact ⟨h, by simp⟩
  | cons f t ih =>
    intro r0 c h
    simp only [List.foldl_cons] at h
    rcases ih (linkingStep abb r0 f) c h with ⟨l1, l2, hsplit, hc, hl1, hl2⟩ | ⟨hstep, hall⟩
    · -- the chosen element comes from the tail
      left
      refine ⟨f :: l1, l2, by rw [hsplit, List.cons_append], hc, ?_, hl2⟩
      intro g hgm
      rcases List.mem_cons.1 hgm with hgf | hg
      · -- g is the head f: after processing it the running best ends at
        -- its end or later, and the best's end never decreases afterwards
        subst hgf
        intro hp
        rcases r0 with _ | o
        · have hs : linkingStep abb none g = some g := by simp [linkingStep, hp]
          rw [hs] at h
          exact linkingFold_mono abb t g c h
        · by_cases hlt : g.position.end_ < o.position.end_
          · have hs : linkingStep abb (some o) g = some o := by
              simp [linkingStep, hp, hlt]
            rw [hs] at h
            have := linkingFold_mono abb t o c h
            omega
          · have hs : linkingStep abb (some o) g = some g := by
              simp [linkingStep, hp, hlt]
            rw [hs] at h
            exact linkingFold_mono abb t g c h
      · exact hl1 g hg
    · -- the chosen element is already the value after the first step
      by_cases hp : f.position.end_ ≤ abb.position.start
      · rcases r0 with _ | o
        · -- r0 = none: the chosen element is f itself
          have hs : linkingStep abb none f = some f := by simp [linkingStep, hp]
          rw [hs] at hstep
          injection hstep with hstep
          left
          subst hstep
          exact ⟨[], t, rfl, hp, by simp, hall⟩
        · by_cases hlt : f.position.end_ < o.position.end_
          · -- f ends strictly earlier than the running best: best kept
            have hs : linkingStep abb (some o) f = some o := by
              simp [linkingStep, hp, hlt]
            rw [hs] at hstep
            right
            refine ⟨hstep, ?_⟩
            intro g hgm
            rcases List.mem_cons.1 hgm with hgf | hg
            · subst hgf
              intro _
              injection hstep with hstep
              subst hstep
              omega
            · exact hall g hg
          · -- f replaces the running best
            have hs : linkingStep abb (some o) f = some f := by
              simp [linkingStep, hp, hlt]
            rw [hs] at hstep
            injection hstep with hstep
            left
            subst hstep
            exact ⟨[], t, rfl, hp, by simp, hall⟩
      · right
        simp only [linkingStep, if_neg hp] at hstep
        refine ⟨hstep, ?_⟩
        intro g hgm
        rcases List.mem_cons.1 hgm with rfl | hg
        · intro hp2; exact absurd hp2 hp
        · exact hall g hg

/-- C5: for every unresolved mention `M` and every list of full-name
matches, `linking_abb_and_full_name` returns `M` carrying the target of an
entry whose span ends at or before `M`'s start with maximal end offset
(entries scanned later win ties: every earlier eligible entry ends at or
below the chosen one, every later eligible entry ends strictly below it),
and returns `none` (`M` is dropped) exactly when no entry ends at or
before `M`'s start; on the concrete example with matches at
`[5,7)→law0`, `[8,10)→law1`, `[29,31)→law2` and `M` at `[20,27)`, linking
resolves to `law1`. -/
theorem C5_antecedent_linking :
    (∀ (abb_info : FindLawName) (lst : List FindLawName),
      (linking_abb_and_full_name abb_info lst = none ↔
        ∀ f ∈ lst, ¬ f.position.end_ ≤ abb_info.position.start)
      ∧ (∀ res, linking_abb_and_full_name abb_info lst = some res →
          res.position = abb_info.position ∧ res.match_string = abb_info.match_string
          ∧ ∃ l1 chosen l2, lst = l1 ++ chosen :: l2
              ∧ chosen.position.end_ ≤ abb_info.position.start
              ∧ res.find_law = chosen.find_law
              ∧ (∀ f ∈ l1, f.position.end_ ≤ abb_info.position.start →
                  f.position.end_ ≤ chosen.position.end_)
              ∧ (∀ f ∈ l2, f.position.end_ ≤ abb_info.position.start →
                  f.position.end_ < chosen.position.end_)))
    ∧ (linking_abb_and_full_name (fln 20 27) linkEx).map (fun r => r.find_law)
        = some (some law1) := by
  constructor
  · intro abb lst
    constructor
    · unfold linking_abb_and_full_name
      rw [Option.map_eq_none']
      rw [linkingFold_none_iff abb lst none]
      simp
    · intro res h
      unfold linking_abb_and_full_name at h
      rw [Option.map_eq_some'] at h
      obtain ⟨r, hr, hres⟩ := h
      rcases linkingFold_char abb lst none r hr with ⟨l1, l2, hsplit, hc, hl1, hl2⟩ | ⟨h0, _⟩
      · subst hres
        exact ⟨rfl, rfl, l1, r, l2, hsplit, hc, rfl, hl1, hl2⟩
      · exact absurd h0 (by simp)
  · decide

/-- Witness for C5: the characterization applied at the concrete example
and at the empty list. -/
theorem C5_witness :
    (linking_abb_and_full_name (fln 20 27) linkEx).map (fun r => r.find_law)
      = some (some law1)
    ∧ (linking_abb_and_full_name (fln 20 27) [] = none ↔
        ∀ f ∈ ([] : List FindLawName), ¬ f.position.end_ ≤ (fln 20 27).position.start) :=
  ⟨C5_antecedent_linking.2, (C5_antecedent_linking.1 (fln 20 27) []).1⟩

/-! ### C1: the overlap resolver -/

lemma resolve_duplicates_mem :
    ∀ (lst : List FindLawName) (find x : FindLawName),
      x ∈ resolve_duplicates lst find → x ∈ lst ∨ x = find := by
  intro lst
  induction lst with
  | nil =>
    intro find x hx
    simp only [resolve_duplicates, List.mem_singleton] at hx
    exact Or.inr hx
  | cons f rest ih =>
    intro find x hx
    simp only [resolve_duplicates] at hx
    by_cases hb1 : f.position.start = find.position.start ∧ f.position.end_ = find.position.end_
    · rw [if_pos hb1] at hx
      rcases List.mem_cons.1 hx with rfl | hx
      · exact Or.inr rfl
      · exact Or.inl (List.mem_cons_of_mem f hx)
    · rw [if_neg hb1] at hx
      by_cases hb2 : f.position.start ≥ find.position.start ∧
          f.position.end_ ≤ find.position.end_
      · rw [if_pos hb2] at hx
        rcases List.mem_cons.1 hx with rfl | hx
        · exact Or.inr rfl
        · exact Or.inl (List.mem_cons_of_mem f hx)
      · rw [if_neg hb2] at hx
        by_cases hb3 : f.position.start ≤ find.position.start ∧
            find.position.end_ ≤ f.position.end_
        · rw [if_pos hb3] at hx
          exact Or.inl hx
        · rw [if_neg hb3] at hx
          rcases List.mem_cons.1 hx with rfl | hx
          · exact Or.inl (List.mem_cons_self x rest)
          · rcases ih find x hx with hx2 | hx2
            · exact Or.inl (List.mem_cons_of_mem f hx2)
            · exact Or.inr hx2

/-- C1, amended: `resolve_duplicates` preserves overlap-freedom provided
every span is non-empty, every overlap between the candidate and an
existing entry is an exact equality or a containment (the resolver handles
no other overlap shape), and at most one existing entry overlaps the
candidate (the resolver stops resolving after the first interaction).
Without these restrictions the output can contain overlapping
non-identical spans. -/
theorem C1_amended :
    ∀ (lst : List FindLawName) (find : FindLawName),
      (∀ g ∈ lst, g.position.start < g.position.end_) →
      find.position.start < find.position.end_ →
      NoOverlap lst →
      (∀ g ∈ lst, Overlapping g.position find.position →
        SpanContains find.position g.position ∨ SpanContains g.position find.position) →
      lst.Pairwise (fun a b => ¬ (Overlapping a.position find.position ∧
        Overlapping b.position find.position)) →
      NoOverlap (resolve_duplicates lst find) := by
  intro lst
  induction lst with
  | nil =>
    intro find _ _ _ _ _
    simp [resolve_duplicates, NoOverlap]
  | cons f rest ih =>
    intro find hne hfne h1 h2 h3
    have h1f : ∀ g ∈ rest, ¬ Overlapping f.position g.position := (List.pairwise_cons.1 h1).1
    have h1rest : NoOverlap rest := (List.pairwise_cons.1 h1).2
    have h3f := (List.pairwise_cons.1 h3).1
    have h3rest := (List.pairwise_cons.1 h3).2
    have hf := hne f (List.mem_cons_self f rest)
    simp only [resolve_duplicates]
    by_cases hb1 : f.position.start = find.position.start ∧ f.position.end_ = find.position.end_
    · rw [if_pos hb1]
      have hpos : f.position = find.position := by
        obtain ⟨hs, he⟩ := hb1
        cases hpf : f.position
        cases hpd : find.position
        rw [hpf, hpd] at hs he
        simp_all
      refine List.pairwise_cons.2 ⟨?_, h1rest⟩
      intro g hg hov
      exact h1f g hg (hpos ▸ hov)
    · rw [if_neg hb1]
      by_cases hb2 : f.position.start ≥ find.position.start ∧
          f.position.end_ ≤ find.position.end_
      · rw [if_pos hb2]
        obtain ⟨hb2a, hb2b⟩ := hb2
        have hovf : Overlapping f.position find.position := ⟨by omega, by omega⟩
        refine List.pairwise_cons.2 ⟨?_, h1rest⟩
        intro g hg hov
        exact h3f g hg ⟨hovf, ⟨hov.2, hov.1⟩⟩
      · rw [if_neg hb2]
        by_cases hb3 : f.position.start ≤ find.position.start ∧
            find.position.end_ ≤ f.position.end_
        · rw [if_pos hb3]
          exact h1
        · rw [if_neg hb3]
          have hnov : ¬ Overlapping f.position find.position := by
            intro hov
            rcases h2 f (List.mem_cons_self f rest) hov with hc | hc
            · exact hb2 ⟨hc.1, hc.2⟩
            · exact hb3 ⟨hc.1, hc.2⟩
          refine List.pairwise_cons.2 ⟨?_, ?_⟩
          · intro g hg hov
            rcases resolve_duplicates_mem rest find g hg with hgr | rfl
            · exact h1f g hgr hov
            · exact hnov hov
          · exact ih find (fun g hg => hne g (List.mem_cons_of_mem f hg)) hfne h1rest
              (fun g hg hov => h2 g (List.mem_cons_of_mem f hg) hov) h3rest

/-- Witness for C1's amended theorem at a concrete disjoint insertion. -/
theorem C1_witness :
    NoOverlap [fln 0 2] ∧ NoOverlap (resolve_duplicates [fln 0 2] (fln 5 7)) :=
  ⟨by decide,
    C1_amended [fln 0 2] (fln 5 7) (by decide) (by decide) (by decide) (by decide) (by decide)⟩

/-! ### C6: the name/number merge resolver -/

lemma pairDecision_some_cases (text : Str) (a b : FindLawName) (i k : Nat)
    (h : pairDecision text a b i = some k) : k = i ∨ k = i + 1 := by
  unfold pairDecision at h
  by_cases hord : a.position.end_ < b.position.start
  · rw [if_pos hord] at h
    have h2 : (if pairCond text a b then some (i + 1) else none) = some k := h
    by_cases hc : pairCond text a b
    · rw [if_pos hc] at h2
      injection h2 with h2
      exact Or.inr h2.symm
    · rw [if_neg hc] at h2
      exact absurd h2 (by simp)
  · rw [if_neg hord] at h
    have h2 : (if pairCond text b a then some i else none) = some k := h
    by_cases hc : pairCond text b a
    · rw [if_pos hc] at h2
      injection h2 with h2
      exact Or.inl h2.symm
    · rw [if_neg hc] at h2
      exact absurd h2 (by simp)

lemma pairRemoveIndices_eq (text : Str) :
    ∀ (lst : List FindLawName) (i0 : Nat),
      pairRemoveIndices text lst i0 =
        (List.range (lst.length - 1)).filterMap
          (fun j => match lst.get? j, lst.get? (j + 1) with
            | some a, some b => pairDecision text a b (i0 + j)
            | _, _ => none) := by
  intro lst
  induction lst with
  | nil => intro i0; rfl
  | cons a rest ih =>
    intro i0
    cases rest with
    | nil => rfl
    | cons b rest2 =>
      have hfun :
          (fun j => match (a :: b :: rest2).get? j, (a :: b :: rest2).get? (j + 1) with
            | some x, some y => pairDecision text x y (i0 + j)
            | _, _ => none) ∘ Nat.succ
          = (fun j => match (b :: rest2).get? j, (b :: rest2).get? (j + 1) with
            | some x, some y => pairDecision text x y ((i0 + 1) + j)
            | _, _ => none) := by
        funext j
        have harith : i0 + (j + 1) = (i0 + 1) + j := by omega
        show (match (a :: b :: rest2).get? (j + 1), (a :: b :: rest2).get? (j + 1 + 1) with
          | some x, some y => pairDecision text x y (i0 + (j + 1))
          | _, _ => none) = _
        simp only [List.get?_cons_succ]
        rw [harith]
      have hlen : (a :: b :: rest2).length - 1 = ((b :: rest2).length - 1) + 1 := by simp
      rw [hlen, List.range_succ_eq_map, List.filterMap_cons]
      show (match pairDecision text a b i0 with
          | some i2 => [i2]
          | none => []) ++ pairRemoveIndices text (b :: rest2) (i0 + 1) = _
      rw [ih (i0 + 1), List.filterMap_map, hfun]
      rcases hd : pairDecision text a b i0 with _ | i2 <;>
        simp [hd, List.get?]

lemma pairDecisionAt_oob (text : Str) (lst : List FindLawName) (j : Nat)
    (h : ¬ j + 1 < lst.length) : pairDecisionAt text lst j = none := by
  unfold pairDecisionAt
  have : lst.get? (j + 1) = none := List.get?_eq_none.2 (by omega)
  rw [this]
  rcases lst.get? j with _ | a <;> rfl

lemma filterMap_range_singleton (f : Nat → Option Nat) :
    ∀ (n j k : Nat), j < n → f j = some k → (∀ j' < n, j' ≠ j → f j' = none) →
      (List.range n).filterMap f = [k] := by
  intro n
  induction n with
  | zero => intro j k hj; exact absurd hj (by omega)
  | succ m ih =>
    intro j k hj hfj hothers
    rw [List.range_succ, List.filterMap_append]
    by_cases hjm : j = m
    · have hnil : (List.range m).filterMap f = [] := by
        rw [List.filterMap_eq_nil_iff]
        intro a ha
        have ham := List.mem_range.1 ha
        exact hothers a (by omega) (by omega)
      have hfm : f m = some k := by rw [← hjm]; exact hfj
      rw [hnil, List.filterMap_cons, hfm]
      rfl
    · have htail : ([m].filterMap f) = [] := by
        rw [List.filterMap_cons, hothers m (by omega) (fun hc => hjm hc.symm)]
        rfl
      rw [htail, ih j k (by omega) hfj (fun j' hj' hne => hothers j' (by omega) hne),
        List.append_nil]

lemma filterMap_range_nil (f : Nat → Option Nat) (n : Nat)
    (h : ∀ j < n, f j = none) : (List.range n).filterMap f = [] := by
  rw [List.filterMap_eq_nil_iff]
  intro a ha
  exact h a (List.mem_range.1 ha)

/-- C6, amended: `resolve_name_and_number` examines only consecutive pairs
of the match list.  When no consecutive pair satisfies the merge
conditions, the list is returned untouched; when exactly one consecutive
pair satisfies them, exactly the index recorded for that pair (the
later-positioned, statute-number match) is removed.  A qualifying pair
that is not adjacent in the list is never examined. -/
theorem C6_amended :
    ∀ (lst : List FindLawName) (text : Str),
      ((∀ j, j < lst.length → pairDecisionAt text lst j = none) →
        resolve_name_and_number lst text = some lst)
      ∧ (∀ j k, pairDecisionAt text lst j = some k →
          (∀ j', j' < lst.length → j' ≠ j → pairDecisionAt text lst j' = none) →
          k < lst.length ∧ resolve_name_and_number lst text = some (lst.eraseIdx k)) := by
  intro lst text
  have hrm : pairRemoveIndices text lst 0 =
      (List.range (lst.length - 1)).filterMap (fun j => pairDecisionAt text lst j) := by
    rw [pairRemoveIndices_eq text lst 0]
    congr 1
    funext j
    unfold pairDecisionAt
    rcases lst.get? j with _ | a <;> rcases lst.get? (j + 1) with _ | b <;>
      simp [Nat.zero_add]
  constructor
  · intro hall
    unfold resolve_name_and_number
    rw [hrm, filterMap_range_nil _ _ ?hnone]
    · rfl
    case hnone =>
      intro j hj
      exact hall j (by omega)
  · intro j k hjk huniq
    have hget : lst.get? (j + 1) ≠ none := by
      intro hn
      unfold pairDecisionAt at hjk
      rw [hn] at hjk
      rcases lst.get? j with _ | a <;> exact absurd hjk (by simp)
    have hjlen : j + 1 < lst.length := by
      by_contra hc
      exact hget (List.get?_eq_none.2 (by omega))
    have hk : k < lst.length := by
      have hcase : k = j ∨ k = j + 1 := by
        unfold pairDecisionAt at hjk
        rcases hga : lst.get? j with _ | a
        · rw [hga] at hjk; exact absurd hjk (by simp)
        · rcases hgb : lst.get? (j + 1) with _ | b
          · rw [hga, hgb] at hjk; exact absurd hjk (by simp)
          · rw [hga, hgb] at hjk
            exact pairDecision_some_cases text a b j k hjk
      omega
    refine ⟨hk, ?_⟩
    unfold resolve_name_and_number
    rw [hrm, filterMap_range_singleton _ (lst.length - 1) j k (by omega) hjk ?huniq]
    · show removeAt lst k >>= _ = _
      unfold removeAt
      rw [if_pos hk]
      rfl
    case huniq =>
      intro j' hj' hne
      exact huniq j' (by omega) hne

/-- Witness for C6's amended theorem: an adjacent qualifying pair (the
name `fa6` and the statute number `fb6` with `（` between them) has the
statute-number match removed. -/
theorem C6_witness :
    pairDecisionAt text6 [fa6, fb6] 0 = some 1
    ∧ resolve_name_and_number [fa6, fb6] text6
        = some (([fa6, fb6] : List FindLawName).eraseIdx 1) :=
  ⟨by decide, ((C6_amended [fa6, fb6] text6).2 0 1 (by decide) (by decide)).2⟩

/-! ### C4: the trailing-locator scan end offset -/

lemma joukouScan_extends :
    ∀ (cs : List Char) (i depth : Nat) (s : List Char) (e : Nat) (s' : List Char) (e' : Nat),
      joukouScan cs i depth s e = some (s', e') →
      ∃ tail, s' = s ++ tail ∧ (tail = [] → e' = e) := by
  intro cs
  induction cs with
  | nil =>
    intro i depth s e s' e' h
    simp only [joukouScan, Option.some_inj, Prod.mk.injEq] at h
    exact ⟨[], by simp [h.1.symm], fun _ => h.2.symm⟩
  | cons c cs ih =>
    intro i depth s e s' e' h
    simp only [joukouScan] at h
    split at h
    · exact ih _ _ _ _ _ _ h
    · split at h
      · split at h
        · exact absurd h (by simp)
        · exact ih _ _ _ _ _ _ h
      · split at h
        · exact ih _ _ _ _ _ _ h
        · split at h
          · obtain ⟨t', ht', _⟩ := ih _ _ _ _ _ _ h
            refine ⟨c :: t', ?_, ?_⟩
            · rw [ht', List.append_assoc]
              rfl
            · intro hc
              exact absurd hc (by simp)
          · simp only [Option.some_inj, Prod.mk.injEq] at h
            exact ⟨[], by simp [h.1.symm], fun _ => h.2.symm⟩

lemma singleton_isSuffixOf_iff (c : Char) (s : List Char) :
    (([c] : List Char).isSuffixOf s = true) ↔ s.getLast? = some c := by
  rw [List.isSuffixOf_iff_suffix]
  constructor
  · rintro ⟨t, rfl⟩
    simp
  · intro h
    rcases List.getLast?_eq_some_iff.1 h with ⟨t, rfl⟩
    exact ⟨t, rfl⟩

/-- C4, amended: `find_joukou` returns the scan's final end value — the
index of the last collected numeral character, or the mention's original
end offset when nothing is collected — decremented once if the collected
run ends in `の` and once more if the trimmed run then ends in `ノ` (a
decrement at zero is the `usize` underflow panic); when no numeral
characters are collected the original end offset is returned unchanged.
In particular, when the collected run is a single `の` collected at the
mention end itself, the returned end offset is the original minus one,
strictly below it (a parenthesised aside before the `の` can instead
leave the returned offset above the original, so no general
strictly-below statement holds). -/
theorem C4_amended :
    ∀ (pan : Str → Option ArticleNumber) (text : Str) (position : Position) (law : Law)
      (s : List Char) (e : Nat),
      joukouScan (text.drop position.end_) position.end_ 0 [] position.end_ = some (s, e) →
      ((s = [] → e = position.end_ ∧
          find_joukou pan text position law = some (position.end_, law))
       ∧ (s ≠ [] → s.getLast? ≠ some 'の' → s.getLast? ≠ some 'ノ' →
          find_joukou pan text position law
            = some (e, (s.splitOn '第').foldl (assignNumber pan) law))
       ∧ (s.getLast? = some 'の' → (trimEndMatches s 'の').getLast? ≠ some 'ノ' → 0 < e →
          find_joukou pan text position law
            = some (e - 1,
                ((trimEndMatches s 'の').splitOn '第').foldl (assignNumber pan) law))
       ∧ (s.getLast? = some 'の' → (trimEndMatches s 'の').getLast? = some 'ノ' → 1 < e →
          find_joukou pan text position law
            = some (e - 1 - 1,
                ((trimEndMatches (trimEndMatches s 'の') 'ノ').splitOn '第').foldl
                  (assignNumber pan) law))
       ∧ (s.getLast? = some 'ノ' → 0 < e →
          find_joukou pan text position law
            = some (e - 1,
                ((trimEndMatches s 'ノ').splitOn '第').foldl (assignNumber pan) law))
       ∧ (s = ['の'] → e = position.end_ → 0 < position.end_ →
          find_joukou pan text position law = some (position.end_ - 1, law)
            ∧ position.end_ - 1 < position.end_)) := by
  intro pan text position law s e hscan
  refine ⟨?_, ?_, ?_, ?_, ?_, ?_⟩
  · intro hs
    subst hs
    obtain ⟨tail, htail, hemp⟩ := joukouScan_extends _ _ _ _ _ _ _ hscan
    have htl : tail = [] := by simpa using htail.symm
    have he := hemp htl
    subst he
    refine ⟨rfl, ?_⟩
    unfold find_joukou
    rw [hscan]
    rfl
  · intro hne hlast1 hlast2
    have hsuf1 : ¬ (['の'].isSuffixOf s = true) := fun hc =>
      hlast1 ((singleton_isSuffixOf_iff _ _).1 hc)
    have hsuf2 : ¬ (['ノ'].isSuffixOf s = true) := fun hc =>
      hlast2 ((singleton_isSuffixOf_iff _ _).1 hc)
    have ht1 : joukouTrim 'の' (s, e) = some (s, e) := by
      unfold joukouTrim
      exact if_neg hsuf1
    have ht2 : joukouTrim 'ノ' (s, e) = some (s, e) := by
      unfold joukouTrim
      exact if_neg hsuf2
    unfold find_joukou
    rw [hscan]
    simp only [Option.some_bind]
    rw [ht1]
    simp only [Option.some_bind]
    rw [ht2]
    simp only [Option.some_bind]
  · intro hlast hnot2 he
    have hsuf1 : ['の'].isSuffixOf s = true := (singleton_isSuffixOf_iff _ _).2 hlast
    have he0 : ¬ e = 0 := by omega
    have ht1 : joukouTrim 'の' (s, e) = some (trimEndMatches s 'の', e - 1) := by
      unfold joukouTrim
      rw [if_pos hsuf1, if_neg he0]
    have hsuf2 : ¬ (['ノ'].isSuffixOf (trimEndMatches s 'の') = true) := fun hc =>
      hnot2 ((singleton_isSuffixOf_iff _ _).1 hc)
    have ht2 : joukouTrim 'ノ' (trimEndMatches s 'の', e - 1)
        = some (trimEndMatches s 'の', e - 1) := by
      unfold joukouTrim
      exact if_neg hsuf2
    unfold find_joukou
    rw [hscan]
    simp only [Option.some_bind]
    rw [ht1]
    simp only [Option.some_bind]
    rw [ht2]
    simp only [Option.some_bind]
  · intro hlast hlast2 he
    have hsuf1 : ['の'].isSuffixOf s = true := (singleton_isSuffixOf_iff _ _).2 hlast
    have he0 : ¬ e = 0 := by omega
    have ht1 : joukouTrim 'の' (s, e) = some (trimEndMatches s 'の', e - 1) := by
      unfold joukouTrim
      rw [if_pos hsuf1, if_neg he0]
    have hsuf2 : ['ノ'].isSuffixOf (trimEndMatches s 'の') = true :=
      (singleton_isSuffixOf_iff _ _).2 hlast2
    have he1 : ¬ e - 1 = 0 := by omega
    have ht2 : joukouTrim 'ノ' (trimEndMatches s 'の', e - 1)
        = some (trimEndMatches (trimEndMatches s 'の') 'ノ', e - 1 - 1) := by
      unfold joukouTrim
      rw [if_pos hsuf2, if_neg he1]
    unfold find_joukou
    rw [hscan]
    simp only [Option.some_bind]
    rw [ht1]
    simp only [Option.some_bind]
    rw [ht2]
    simp only [Option.some_bind]
  · intro hlast he
    have hsuf1 : ¬ (['の'].isSuffixOf s = true) := by
      intro hc
      have := (singleton_isSuffixOf_iff _ _).1 hc
      rw [hlast] at this
      injection this with this
      exact absurd this (by decide)
    have ht1 : joukouTrim 'の' (s, e) = some (s, e) := by
      unfold joukouTrim
      exact if_neg hsuf1
    have hsuf2 : ['ノ'].isSuffixOf s = true := (singleton_isSuffixOf_iff _ _).2 hlast
    have he0 : ¬ e = 0 := by omega
    have ht2 : joukouTrim 'ノ' (s, e) = some (trimEndMatches s 'ノ', e - 1) := by
      unfold joukouTrim
      rw [if_pos hsuf2, if_neg he0]
    unfold find_joukou
    rw [hscan]
    simp only [Option.some_bind]
    rw [ht1]
    simp only [Option.some_bind]
    rw [ht2]
    simp only [Option.some_bind]
  · intro hs he hpos
    subst hs
    subst he
    have he0 : ¬ position.end_ = 0 := by omega
    have ht1 : joukouTrim 'の' (['の'], position.end_)
        = some (trimEndMatches ['の'] 'の', position.end_ - 1) := by
      unfold joukouTrim
      rw [if_pos (show ['の'].isSuffixOf ['の'] = true by decide), if_neg he0]
    have ht2 : joukouTrim 'ノ' (trimEndMatches ['の'] 'の', position.end_ - 1)
        = some (trimEndMatches ['の'] 'の', position.end_ - 1) := by
      unfold joukouTrim
      exact if_neg (show ¬ (['ノ'].isSuffixOf (trimEndMatches ['の'] 'の') = true) by decide)
    refine ⟨?_, by omega⟩
    unfold find_joukou
    rw [hscan]
    simp only [Option.some_bind]
    rw [ht1]
    simp only [Option.some_bind]
    rw [ht2]
    simp only [Option.some_bind]
    rfl

/-- Witness for C4's amended theorem: a mention followed by `第三条x`
collects `第三条` and returns the index of `条`. -/
theorem C4_witness :
    find_joukou pan_none ['あ', '第', '三', '条', 'x'] ⟨0, 1⟩ law0
      = some (3, ((['第', '三', '条'] : List Char).splitOn '第').foldl
          (assignNumber pan_none) law0)
    ∧ find_joukou pan_none ['え', '法', '一', 'の', '規'] ⟨0, 2⟩ law0
        = some (2, ((trimEndMatches ['一', 'の'] 'の').splitOn '第').foldl
            (assignNumber pan_none) law0) :=
  ⟨(C4_amended pan_none ['あ', '第', '三', '条', 'x'] ⟨0, 1⟩ law0 ['第', '三', '条'] 3
      (by decide)).2.1 (by decide) (by decide) (by decide),
    (C4_amended pan_none ['え', '法', '一', 'の', '規'] ⟨0, 2⟩ law0 ['一', 'の'] 3
      (by decide)).2.2.1 (by decide) (by decide) (by decide)⟩

/-! ### C3: totality of find_joukou on balanced text -/

lemma trimEndMatches_length_lt (ch : Char) (s : List Char) (h : s.getLast? = some ch) :
    (trimEndMatches s ch).length < s.length := by
  rcases List.getLast?_eq_some_iff.1 h with ⟨t, rfl⟩
  unfold trimEndMatches
  rw [List.reverse_append]
  simp only [List.reverse_cons, List.reverse_nil, List.nil_append, List.singleton_append]
  rw [List.dropWhile_cons_of_pos (by simp)]
  have hle := (List.dropWhile_sublist (l := t.reverse) (fun c => decide (c = ch))).length_le
  simp only [List.length_reverse] at hle ⊢
  simp only [List.length_append, List.length_singleton]
  omega

lemma joukouScan_balanced_some :
    ∀ (cs : List Char) (i depth : Nat) (s : List Char) (e : Nat) (i0 : Nat),
      (∀ n, (cs.take n).count '）' ≤ (cs.take n).count '（' + depth) →
      i0 + s.length ≤ i →
      (s ≠ [] → i0 + s.length ≤ e + 1) →
      i0 ≤ e →
      ∃ s' e', joukouScan cs i depth s e = some (s', e') ∧ i0 ≤ e'
        ∧ (s' ≠ [] → i0 + s'.length ≤ e' + 1) := by
  intro cs
  induction cs with
  | nil =>
    intro i depth s e i0 _ _ hs he0
    exact ⟨s, e, rfl, he0, hs⟩
  | cons c cs ih =>
    intro i depth s e i0 hbal hi hs he0
    by_cases h1 : c = '（'
    · have hbal' : ∀ n, (cs.take n).count '）' ≤ (cs.take n).count '（' + (depth + 1) := by
        intro n
        have hb := hbal (n + 1)
        rw [List.take_succ_cons] at hb
        subst h1
        simp [List.count_cons] at hb
        omega
      obtain ⟨s', e', hsc, he', hs'⟩ := ih (i + 1) (depth + 1) s e i0 hbal' (by omega) hs he0
      refine ⟨s', e', ?_, he', hs'⟩
      simp only [joukouScan]
      rw [if_pos h1]
      exact hsc
    · by_cases h2 : c = '）'
      · have hd : ¬ depth = 0 := by
          have hb := hbal 1
          rw [List.take_succ_cons, List.take_zero] at hb
          subst h2
          simp [List.count_cons] at hb
          omega
        have hbal' : ∀ n, (cs.take n).count '）' ≤ (cs.take n).count '（' + (depth - 1) := by
          intro n
          have hb := hbal (n + 1)
          rw [List.take_succ_cons] at hb
          subst h2
          simp [List.count_cons] at hb
          omega
        obtain ⟨s', e', hsc, he', hs'⟩ := ih (i + 1) (depth - 1) s e i0 hbal' (by omega) hs he0
        refine ⟨s', e', ?_, he', hs'⟩
        simp only [joukouScan]
        rw [if_neg h1, if_pos h2, if_neg hd]
        exact hsc
      · have hbal' : ∀ n, (cs.take n).count '）' ≤ (cs.take n).count '（' + depth := by
          intro n
          have hb := hbal (n + 1)
          rw [List.take_succ_cons] at hb
          simp [List.count_cons, h1, h2] at hb
          omega
        by_cases h3 : depth > 0
        · obtain ⟨s', e', hsc, he', hs'⟩ := ih (i + 1) depth s e i0 hbal' (by omega) hs he0
          refine ⟨s', e', ?_, he', hs'⟩
          simp only [joukouScan]
          rw [if_neg h1, if_neg h2, if_pos h3]
          exact hsc
        · by_cases h4 : target_c.contains c = true
          · obtain ⟨s', e', hsc, he', hs'⟩ := ih (i + 1) depth (s ++ [c]) i i0 hbal'
              (by simp only [List.length_append, List.length_singleton]; omega)
              (by intro _; simp only [List.length_append, List.length_singleton]; omega)
              (by omega)
            refine ⟨s', e', ?_, he', hs'⟩
            simp only [joukouScan]
            rw [if_neg h1, if_neg h2, if_neg h3, if_pos h4]
            exact hsc
          · refine ⟨s, e, ?_, he0, hs⟩
            simp only [joukouScan]
            rw [if_neg h1, if_neg h2, if_neg h3, if_neg h4]

/-- C3, amended: the helper `find_joukou` returns normally on every
paragraph text in which, scanning forward from the mention end, every
prefix of the scanned window contains at least as many `（` as `）` (no
unmatched closing parenthesis), for every non-degenerate mention
(positive end offset).  On text violating this — an unmatched `）` at
depth zero — the `usize` depth decrement underflows and the function does
not return normally.  No such guarantee extends to `parse_ref`: even on
fully balanced text a paragraph with two name/number merge pairs panics
in `resolve_name_and_number` via a stale `Vec::remove` index (both
failure modes are in the counterexample theorem). -/
theorem C3_amended (pan : Str → Option ArticleNumber) (text : Str) (position : Position)
    (law : Law) (hpos : 0 < position.end_)
    (hbal : ∀ n ≤ (text.drop position.end_).length,
      ((text.drop position.end_).take n).count '）'
        ≤ ((text.drop position.end_).take n).count '（') :
    ∃ r, find_joukou pan text position law = some r := by
  set w := text.drop position.end_ with hw
  have hbal' : ∀ n, (w.take n).count '）' ≤ (w.take n).count '（' + 0 := by
    intro n
    by_cases hn : n ≤ w.length
    · simpa using hbal n hn
    · rw [List.take_of_length_le (by omega)]
      have := hbal w.length le_rfl
      rw [List.take_length] at this
      simpa using this
  obtain ⟨s, e, hscan, he0, hs⟩ := joukouScan_balanced_some w position.end_ 0 [] position.end_
    position.end_ hbal' (by simp) (by simp) le_rfl
  unfold find_joukou
  rw [← hw, hscan]
  simp only [Option.some_bind]
  by_cases hsuf1 : ['の'].isSuffixOf s = true
  · have hne : s ≠ [] := by
      intro hc
      rw [hc] at hsuf1
      exact absurd hsuf1 (by decide)
    have he : ¬ e = 0 := by
      have := hs hne
      have hlen : 1 ≤ s.length := by
        cases s
        · exact absurd rfl hne
        · simp
      omega
    have ht1 : joukouTrim 'の' (s, e) = some (trimEndMatches s 'の', e - 1) := by
      unfold joukouTrim
      rw [if_pos hsuf1, if_neg he]
    rw [ht1]
    simp only [Option.some_bind]
    by_cases hsuf2 : ['ノ'].isSuffixOf (trimEndMatches s 'の') = true
    · have hne2 : trimEndMatches s 'の' ≠ [] := by
        intro hc
        rw [hc] at hsuf2
        exact absurd hsuf2 (by decide)
      have hlt := trimEndMatches_length_lt 'の' s ((singleton_isSuffixOf_iff _ _).1 hsuf1)
      have hlen2 : 1 ≤ (trimEndMatches s 'の').length := by
        cases hc : trimEndMatches s 'の'
        · exact absurd hc hne2
        · simp [hc]
      have he2 : ¬ e - 1 = 0 := by
        have := hs hne
        omega
      have ht2 : joukouTrim 'ノ' (trimEndMatches s 'の', e - 1)
          = some (trimEndMatches (trimEndMatches s 'の') 'ノ', e - 1 - 1) := by
        unfold joukouTrim
        rw [if_pos hsuf2, if_neg he2]
      rw [ht2]
      exact ⟨_, rfl⟩
    · have ht2 : joukouTrim 'ノ' (trimEndMatches s 'の', e - 1)
          = some (trimEndMatches s 'の', e - 1) := by
        unfold joukouTrim
        exact if_neg hsuf2
      rw [ht2]
      exact ⟨_, rfl⟩
  · have ht1 : joukouTrim 'の' (s, e) = some (s, e) := by
      unfold joukouTrim
      exact if_neg hsuf1
    rw [ht1]
    simp only [Option.some_bind]
    by_cases hsuf2 : ['ノ'].isSuffixOf s = true
    · have hne : s ≠ [] := by
        intro hc
        rw [hc] at hsuf2
        exact absurd hsuf2 (by decide)
      have he : ¬ e = 0 := by
        have := hs hne
        have hlen : 1 ≤ s.length := by
          cases s
          · exact absurd rfl hne
          · simp
        omega
      have ht2 : joukouTrim 'ノ' (s, e) = some (trimEndMatches s 'ノ', e - 1) := by
        unfold joukouTrim
        rw [if_pos hsuf2, if_neg he]
      rw [ht2]
      exact ⟨_, rfl⟩
    · have ht2 : joukouTrim 'ノ' (s, e) = some (s, e) := by
        unfold joukouTrim
        exact if_neg hsuf2
      rw [ht2]
      exact ⟨_, rfl⟩

/-- Witness for C3's amended theorem: a balanced parenthesised aside after
the mention is skipped and the call returns. -/
theorem C3_witness :
    ∃ r, find_joukou pan_none ['あ', '（', 'x', '）', '第'] ⟨0, 1⟩ law0 = some r :=
  C3_amended pan_none ['あ', '（', 'x', '）', '第'] ⟨0, 1⟩ law0 (by decide) (by decide)

/-! ### C2: pipeline determinism -/

/-- C2, counterexample: with the single paragraph `ABC` and the same
name table enumerated in two different orders (names `AB`→`law1` and
`BC`→`law2`, which produce partially overlapping matches), `parse_ref`
returns two different Resolved Reference lists — the output order follows
the name table's enumeration order. -/
theorem C2_counterexample :
    ([(['A', 'B'], law1), (['B', 'C'], law2)] : List (Str × Law)).Perm
      [(['B', 'C'], law2), (['A', 'B'], law1)]
    ∧ parse_ref pan_none [para0] [(['A', 'B'], law1), (['B', 'C'], law2)]
        ≠ parse_ref pan_none [para0] [(['B', 'C'], law2), (['A', 'B'], law1)] := by
  refine ⟨List.Perm.swap _ _ _, ?_⟩
  unfold parse_ref
  rw [show ([para0].filter (fun l => l.paragraph_text.isSome)) = [para0] from rfl,
    mergeSort_single]
  decide

lemma ord_article_congr_left (a b c : Law) (h1 : a.article_number = b.article_number)
    (h2 : a.paragraph_number = b.paragraph_number) : ord_article a c = ord_article b c := by
  rw [ord_article_eq_lex, ord_article_eq_lex, h1, h2]

lemma ord_article_congr_right (a b c : Law) (h1 : b.article_number = c.article_number)
    (h2 : b.paragraph_number = c.paragraph_number) : ord_article a b = ord_article a c := by
  rw [ord_article_eq_lex, ord_article_eq_lex, h1, h2]

lemma ordArticleLe_iff (a b : Law) :
    ordArticleLe a b = true ↔ ¬ ord_article a b = Ordering.gt := by
  simp [ordArticleLe]

lemma ordArticleLe_trans (a b c : Law) (h1 : ordArticleLe a b = true)
    (h2 : ordArticleLe b c = true) : ordArticleLe a c = true := by
  rw [ordArticleLe_iff] at h1 h2 ⊢
  rcases hab : ord_article a b with _ | _ | _ <;> rcases hbc : ord_article b c with _ | _ | _
  · rw [ord_article_lt_trans a b c hab hbc]
    simp
  · obtain ⟨k1, k2⟩ := (ord_article_eq_key b c).1 hbc
    rw [← ord_article_congr_right a b c k1 k2, hab]
    simp
  · exact absurd hbc h2
  · obtain ⟨k1, k2⟩ := (ord_article_eq_key a b).1 hab
    rw [ord_article_congr_left a b c k1 k2, hbc]
    simp
  · obtain ⟨k1, k2⟩ := (ord_article_eq_key a b).1 hab
    rw [ord_article_congr_left a b c k1 k2, hbc]
    simp
  · exact absurd hbc h2
  · exact absurd hab h1
  · exact absurd hab h1
  · exact absurd hab h1

lemma ordArticleLe_total (a b : Law) : (ordArticleLe a b || ordArticleLe b a) = true := by
  rcases hab : ord_article a b with _ | _ | _
  · have : ordArticleLe a b = true := by rw [ordArticleLe_iff, hab]; simp
    simp [this]
  · have : ordArticleLe a b = true := by rw [ordArticleLe_iff, hab]; simp
    simp [this]
  · have : ordArticleLe b a = true := by
      rw [ordArticleLe_iff, ord_article_swap, hab]
      decide
    simp [this]

lemma ord_eq_of_le_both (a b : Law) (h1 : ordArticleLe a b = true)
    (h2 : ordArticleLe b a = true) : ord_article a b = Ordering.eq := by
  rw [ordArticleLe_iff] at h1 h2
  rw [ord_article_swap] at h2
  rcases hab : ord_article a b with _ | _ | _
  · rw [hab] at h2
    exact absurd rfl h2
  · rfl
  · rw [hab] at h1
    exact absurd rfl h1

lemma sorted_unique_ord :
    ∀ (l1 l2 : List Law), l1.Perm l2 →
      l1.Pairwise (fun a b => ordArticleLe a b = true) →
      l2.Pairwise (fun a b => ordArticleLe a b = true) →
      (∀ a ∈ l1, ∀ b ∈ l1, ord_article a b = Ordering.eq → a = b) →
      l1 = l2 := by
  intro l1
  induction l1 with
  | nil =>
    intro l2 hperm _ _ _
    exact hperm.nil_eq
  | cons a t1 ih =>
    intro l2 hperm hs1 hs2 hdist
    cases l2 with
    | nil => exact absurd hperm.symm.nil_eq (by simp)
    | cons b t2 =>
      have hab : a ∈ b :: t2 := hperm.subset (List.mem_cons_self a t1)
      by_cases heq : a = b
      · subst heq
        have htail : t1.Perm t2 := hperm.cons_inv
        have h1 := List.pairwise_cons.1 hs1
        have h2 := List.pairwise_cons.1 hs2
        rw [ih t2 htail h1.2 h2.2
          (fun x hx y hy hxy => hdist x (List.mem_cons_of_mem a hx)
            y (List.mem_cons_of_mem a hy) hxy)]
      · exfalso
        have hat2 : a ∈ t2 := by
          rcases List.mem_cons.1 hab with h | h
          · exact absurd h heq
          · exact h
        have hbt1 : b ∈ t1 := by
          have hba : b ∈ a :: t1 := hperm.symm.subset (List.mem_cons_self b t2)
          rcases List.mem_cons.1 hba with h | h
          · exact absurd h.symm heq
          · exact h
        have hle1 : ordArticleLe a b = true := (List.pairwise_cons.1 hs1).1 b hbt1
        have hle2 : ordArticleLe b a = true := (List.pairwise_cons.1 hs2).1 a hat2
        exact heq (hdist a (List.mem_cons_self a t1) b (List.mem_cons_of_mem a hbt1)
          (ord_eq_of_le_both a b hle1 hle2))

/-- C2, amended: the output of `parse_ref` does not depend on the
enumeration order of the target map, provided no two distinct paragraph
entries compare `Equal` under `ord_article` (true of map-derived entries,
whose article/paragraph numbers are part of the key): any two enumerations
that are permutations of one another yield identical Resolved Reference
lists.  The name table's enumeration order, by contrast, does affect the
output (see the counterexample), so byte-identical output additionally
requires the same name-table enumeration order in both runs. -/
theorem C2_amended (pan : Str → Option ArticleNumber) (law_map : List (Str × Law))
    (t1 t2 : List Law) (hperm : t1.Perm t2)
    (hdist : ∀ a ∈ t1, ∀ b ∈ t1, ord_article a b = Ordering.eq → a = b) :
    parse_ref pan t1 law_map = parse_ref pan t2 law_map := by
  have hfilter : (t1.filter (fun l => l.paragraph_text.isSome)).Perm
      (t2.filter fun l => l.paragraph_text.isSome) := hperm.filter _
  have hms : (t1.filter (fun l => l.paragraph_text.isSome)).mergeSort ordArticleLe
      = (t2.filter (fun l => l.paragraph_text.isSome)).mergeSort ordArticleLe := by
    apply sorted_unique_ord
    · exact (List.mergeSort_perm _ _).trans (hfilter.trans (List.mergeSort_perm _ _).symm)
    · exact List.sorted_mergeSort ordArticleLe_trans ordArticleLe_total _
    · exact List.sorted_mergeSort ordArticleLe_trans ordArticleLe_total _
    · intro x hx y hy hxy
      have hx1 : x ∈ t1 :=
        List.mem_of_mem_filter ((List.mergeSort_perm _ _).subset hx)
      have hy1 : y ∈ t1 :=
        List.mem_of_mem_filter ((List.mergeSort_perm _ _).subset hy)
      exact hdist x hx1 y hy1 hxy
  unfold parse_ref
  rw [hms]

/-- Witness for C2's amended theorem: two enumeration orders of the same
two-paragraph target yield the same output. -/
theorem C2_witness :
    ([paraA, paraB] : List Law).Perm [paraB, paraA]
    ∧ parse_ref pan_none [paraA, paraB] [] = parse_ref pan_none [paraB, paraA] [] :=
  ⟨List.Perm.swap _ _ _,
    C2_amended pan_none [] [paraA, paraB] [paraB, paraA] (List.Perm.swap _ _ _) (by decide)⟩

end Eli
